import Mathlib

set_option maxHeartbeats 1000000

namespace DMS

/-! Verification of the durable recurring-task scheduler of
`src/cogs/scheduler.py` (discord-message-scheduler).  The Python code is
shallowly embedded: SQLite rows become a Lean structure, the in-memory
readiness heap is a `List` manipulated exactly as CPython's `heapq` module
manipulates its backing list, and the dispatch-loop iteration becomes a pure
state-transition function.  Timestamps are unbounded integers (seconds since
epoch); the Python float `repeat` field is modelled as a rational. -/

/-- The `SavedScheduleEvent` NamedTuple / row of the `Scheduler` table
(scheduler.py lines 73-96).  Field order matches the table schema used by
`from_row`.  The Python field `repeat` is a Lean keyword, hence the escaped
name. -/
structure SavedScheduleEvent where
  id : Int
  message : String
  guild_id : Int
  channel_id : Int
  author_id : Int
  next_event_time : Int
  «repeat» : Option ℚ
  canceled : Bool
  mention : Bool
deriving DecidableEq, Inhabited, Repr

/-- Python `int()` applied to a rational value: truncation toward zero. -/
def pytrunc (q : ℚ) : Int := if q < 0 then -⌊-q⌋ else ⌊q⌋

/-- `SavedScheduleEvent.do_repeat` (scheduler.py lines 98-116): raises
`ValueError` when `repeat` is `None`, otherwise rebuilds the tuple with
`next_event_time = int(current_timestamp + repeat * 60)`. -/
def SavedScheduleEvent.do_repeat (e : SavedScheduleEvent) (current_timestamp : Int) :
    Except String SavedScheduleEvent :=
  match e.«repeat» with
  | none => .error "repeat cannot be None to do_repeat()."
  | some r =>
      .ok ⟨e.id, e.message, e.guild_id, e.channel_id, e.author_id,
           pytrunc ((current_timestamp : ℚ) + r * 60), some r, e.canceled, e.mention⟩

/-- `SavedScheduleEvent.__lt__` (scheduler.py lines 118-122): the heap
comparison uses `next_event_time` only. -/
def SavedScheduleEvent.pyLt (a b : SavedScheduleEvent) : Prop :=
  a.next_event_time < b.next_event_time

/-- The heap key: `__lt__` compares `next_event_time` and nothing else. -/
def keyTime (e : SavedScheduleEvent) : Int := e.next_event_time

/-! ### CPython `heapq` on a backing list

The scheduler uses `heapq.heappush`, `heapq.heappop` and `heapq.heapify` on
`self.schedule_heap`.  The functions below are the CPython implementations
(`Lib/heapq.py`) in pure functional form.  CPython moves a "hole" through the
array and writes the moved item only once at the end; here the hole always
carries its item with it (each step is a swap), which produces the same final
list and performs the same comparisons in the same order. -/

/-- Parent slot of heap slot `j`: Python `(pos - 1) >> 1`. -/
def parentIdx (j : Nat) : Nat := (j - 1) / 2

section PyHeapq

variable {α : Type} [Inhabited α]

/-- Exchange the entries at slots `i` and `j`. -/
def swapAt (l : List α) (i j : Nat) : List α :=
  (l.set i (l.getD j default)).set j (l.getD i default)

variable (key : α → Int)

/-- `heapq._siftdown(heap, startpos, pos)`: bubble the item in slot `pos`
toward the root while it compares strictly less than its parent, never moving
above `startpos`. -/
def siftdown (l : List α) (startpos pos : Nat) : List α :=
  if _h : startpos < pos then
    if key (l.getD pos default) < key (l.getD (parentIdx pos) default) then
      siftdown (swapAt l pos (parentIdx pos)) startpos (parentIdx pos)
    else l
  else l
termination_by pos
decreasing_by
  simp only [parentIdx]
  omega

/-- The child of slot `pos` selected by `heapq._siftup`'s loop body:
the right child when it exists and `not heap[childpos] < heap[rightpos]`,
otherwise the left child. -/
def childSel (l : List α) (pos : Nat) : Nat :=
  if 2 * pos + 2 < l.length ∧
      ¬ key (l.getD (2 * pos + 1) default) < key (l.getD (2 * pos + 2) default)
  then 2 * pos + 2 else 2 * pos + 1

/-- The descent loop of `heapq._siftup(heap, pos)`: move the hole down along
the smaller-child path to a leaf, then restore with `_siftdown`. -/
def siftupAux (l : List α) (startpos pos : Nat) : List α :=
  if _h : 2 * pos + 1 < l.length then
    siftupAux (swapAt l pos (childSel key l pos)) startpos (childSel key l pos)
  else
    siftdown key l startpos pos
termination_by l.length - pos
decreasing_by
  have hlen : (swapAt l pos (childSel key l pos)).length = l.length := by
    simp [swapAt]
  have hgt : pos < childSel key l pos := by
    unfold childSel
    split <;> omega
  omega

/-- `heapq._siftup(heap, pos)`: `startpos` is fixed to `pos` at entry. -/
def siftup (l : List α) (pos : Nat) : List α :=
  siftupAux key l pos pos

/-- `heapq.heappush(heap, item)`: `heap.append(item)` then
`_siftdown(heap, 0, len(heap) - 1)`. -/
def heappush (l : List α) (item : α) : List α :=
  siftdown key (l ++ [item]) 0 l.length

/-- `heapq.heappop(heap)`: pop the last slot; if the heap is still nonempty,
save the root for return, move the popped element to the root and
`_siftup(heap, 0)`.  `none` models the `IndexError` on an empty list (the
scheduler guards every pop with `if self.schedule_heap`). -/
def heappop : List α → Option (α × List α)
  | [] => none
  | [x] => some (x, [])
  | x :: y :: xs =>
      some (x, siftup key (((x :: y :: xs).dropLast).set 0 ((x :: y :: xs).getLastD default)) 0)

/-- The loop of `heapq.heapify(x)`: `for i in reversed(range(n // 2)): _siftup(x, i)`. -/
def heapifyAux (l : List α) : Nat → List α
  | 0 => l
  | i + 1 => heapifyAux (siftup key l i) i

/-- `heapq.heapify(x)`. -/
def heapify (l : List α) : List α :=
  heapifyAux key l (l.length / 2)

/-- Pop every element in heap order (fuel-indexed so the definition is
structural). -/
def popAllAux : Nat → List α → List α
  | 0, _ => []
  | fuel + 1, l =>
      match heappop key l with
      | none => []
      | some (x, rest) => x :: popAllAux fuel rest

/-- Drain the heap completely by iterated `heappop`. -/
def popAll (l : List α) : List α := popAllAux key l.length l

/-- The binary min-heap shape invariant maintained by `heapq`: every slot
compares no less than its parent. -/
def heapInv (l : List α) : Prop :=
  ∀ j, j < l.length → 0 < j →
    key (l.getD (parentIdx j) default) ≤ key (l.getD j default)

/-- `underRoot s i` holds when heap slot `i` lies in the subtree rooted at
slot `s` (its ancestor chain passes through `s`). -/
def underRoot (s i : Nat) : Bool :=
  if _h1 : i < s then false
  else if _h2 : i = s then true
  else underRoot s (parentIdx i)
termination_by i
decreasing_by
  simp only [parentIdx]
  omega

end PyHeapq

/-! ### Positional helper lemmas -/


theorem parentIdx_lt {j : Nat} (h : 0 < j) : parentIdx j < j := by
  simp only [parentIdx]
  omega

theorem child_of_parentIdx {j : Nat} (h : 0 < j) :
    j = 2 * parentIdx j + 1 ∨ j = 2 * parentIdx j + 2 := by
  simp only [parentIdx]
  omega

theorem parentIdx_of_child {p c : Nat} (h : c = 2 * p + 1 ∨ c = 2 * p + 2) :
    parentIdx c = p := by
  simp only [parentIdx]
  omega

section GetDLemmas

variable {α : Type} [Inhabited α]

theorem getD_set_self (l : List α) (i : Nat) (x : α) (hi : i < l.length) :
    (l.set i x).getD i default = x := by
  simp [List.getD_eq_getElem?_getD, List.getElem?_set, hi]

theorem getD_set_ne (l : List α) (i j : Nat) (x : α) (hne : i ≠ j) :
    (l.set i x).getD j default = l.getD j default := by
  simp [List.getD_eq_getElem?_getD, List.getElem?_set, hne]

theorem getD_append_left (l r : List α) (i : Nat) (h : i < l.length) :
    (l ++ r).getD i default = l.getD i default := by
  simp [List.getD_eq_getElem?_getD, List.getElem?_append, h]

theorem getD_append_self (l : List α) (x : α) :
    (l ++ [x]).getD l.length default = x := by
  simp [List.getD_eq_getElem?_getD, List.getElem?_append_right (Nat.le_refl _)]

theorem getD_mem (l : List α) (i : Nat) (h : i < l.length) :
    l.getD i default ∈ l := by
  simp [List.getD_eq_getElem?_getD, List.getElem?_eq_getElem h]

@[simp] theorem length_swapAt (l : List α) (i j : Nat) :
    (swapAt l i j).length = l.length := by
  simp [swapAt]

theorem getD_swapAt_fst (l : List α) (i j : Nat) (hj : j < l.length) :
    (swapAt l i j).getD j default = l.getD i default := by
  simp only [swapAt]
  exact getD_set_self _ _ _ (by simpa using hj)

theorem getD_swapAt_snd (l : List α) (i j : Nat) (hi : i < l.length) (hne : i ≠ j) :
    (swapAt l i j).getD i default = l.getD j default := by
  simp only [swapAt]
  rw [getD_set_ne _ _ _ _ (Ne.symm hne)]
  exact getD_set_self _ _ _ hi

theorem getD_swapAt_other (l : List α) (i j m : Nat) (hmi : m ≠ i) (hmj : m ≠ j) :
    (swapAt l i j).getD m default = l.getD m default := by
  simp only [swapAt]
  rw [getD_set_ne _ _ _ _ (Ne.symm hmj), getD_set_ne _ _ _ _ (Ne.symm hmi)]

/-- Replacing slot `k` by `x` and prepending the old entry is a permutation of
prepending `x`. -/
theorem cons_set_perm (xs : List α) (k : Nat) (x : α) (hk : k < xs.length) :
    List.Perm (xs.getD k default :: xs.set k x) (x :: xs) := by
  induction xs generalizing k with
  | nil => simp at hk
  | cons a as ih =>
    match k with
    | 0 => simpa using List.Perm.swap x a as
    | m + 1 =>
      have hm : m < as.length := by simpa using hk
      have h1 : List.Perm (as.getD m default :: a :: as.set m x)
          (a :: as.getD m default :: as.set m x) := List.Perm.swap a _ _
      have h2 : List.Perm (a :: as.getD m default :: as.set m x) (a :: x :: as) :=
        (ih m hm).cons a
      have h3 : List.Perm (a :: x :: as) (x :: a :: as) := List.Perm.swap x a as
      simpa using (h1.trans h2).trans h3

theorem swapAt_perm (l : List α) (i j : Nat) (hi : i < l.length) (hj : j < l.length) :
    List.Perm (swapAt l i j) l := by
  induction l generalizing i j with
  | nil => simp at hi
  | cons a as ih =>
    match i, j with
    | 0, 0 => simp [swapAt]
    | 0, k + 1 =>
      have hk : k < as.length := by simpa using hj
      have : swapAt (a :: as) 0 (k + 1) = as.getD k default :: as.set k a := by
        simp [swapAt]
      rw [this]
      exact cons_set_perm as k a hk
    | m + 1, 0 =>
      have hm : m < as.length := by simpa using hi
      have : swapAt (a :: as) (m + 1) 0 = as.getD m default :: as.set m a := by
        simp [swapAt]
      rw [this]
      exact cons_set_perm as m a hm
    | m + 1, k + 1 =>
      have hm : m < as.length := by simpa using hi
      have hk : k < as.length := by simpa using hj
      have : swapAt (a :: as) (m + 1) (k + 1) = a :: swapAt as m k := by
        simp [swapAt]
      rw [this]
      exact (ih m k hm hk).cons a

end GetDLemmas

/-! ### `underRoot` lemmas -/

theorem underRoot_self (s : Nat) : underRoot s s = true := by
  rw [underRoot]
  simp

theorem underRoot_step {s i : Nat} (hi : s < i) :
    underRoot s i = underRoot s (parentIdx i) := by
  rw [underRoot]
  simp [Nat.not_lt_of_lt hi, Nat.ne_of_gt hi]

theorem underRoot_zero (i : Nat) : underRoot 0 i = true := by
  induction i using Nat.strong_induction_on with
  | _ i ih =>
    rcases Nat.eq_zero_or_pos i with h0 | h0
    · subst h0
      exact underRoot_self 0
    · rw [underRoot_step h0]
      exact ih _ (parentIdx_lt h0)

theorem underRoot_le {s i : Nat} (h : underRoot s i = true) : s ≤ i := by
  by_contra hlt
  rw [underRoot] at h
  simp [Nat.lt_of_not_le hlt] at h

theorem underRoot_parent {s i : Nat} (hi : s < i) (h : underRoot s i = true) :
    underRoot s (parentIdx i) = true := by
  rwa [underRoot_step hi] at h

theorem underRoot_child {s p c : Nat} (h : underRoot s p = true)
    (hc : c = 2 * p + 1 ∨ c = 2 * p + 2) : underRoot s c = true := by
  have hps : s ≤ p := underRoot_le h
  have hcgt : p < c := by omega
  have : s < c := Nat.lt_of_le_of_lt hps hcgt
  rw [underRoot_step this, parentIdx_of_child hc]
  exact h

/-! ### Specification of the sift operations -/

section HeapSpecs

variable {α : Type} [Inhabited α] (key : α → Int)

/-- Key of the entry at heap slot `i`. -/
def kAt (l : List α) (i : Nat) : Int := key (l.getD i default)

theorem kAt_swapAt_fst (l : List α) (i j : Nat) (hj : j < l.length) :
    kAt key (swapAt l i j) j = kAt key l i := by
  simp only [kAt]
  rw [getD_swapAt_fst _ _ _ hj]

theorem kAt_swapAt_snd (l : List α) (i j : Nat) (hi : i < l.length) (hne : i ≠ j) :
    kAt key (swapAt l i j) i = kAt key l j := by
  simp only [kAt]
  rw [getD_swapAt_snd _ _ _ hi hne]

theorem kAt_swapAt_other (l : List α) (i j m : Nat) (hmi : m ≠ i) (hmj : m ≠ j) :
    kAt key (swapAt l i j) m = kAt key l m := by
  simp only [kAt]
  rw [getD_swapAt_other _ _ _ _ hmi hmj]

/-- Full specification of `siftdown`: it permutes the list, touches only the
subtree below `startpos`, and if every parent-child pair inside that subtree
was in order except possibly the pair above `pos` — and the item in `pos` was
no smaller than the grandparent bound on its children — then afterwards every
pair inside the subtree is in order. -/
theorem siftdown_spec (pos : Nat) : ∀ (l : List α) (s : Nat),
    pos < l.length → underRoot s pos = true →
    (∀ j, j < l.length → s < j → underRoot s j = true → j ≠ pos →
      kAt key l (parentIdx j) ≤ kAt key l j) →
    (s < pos → ∀ c, c < l.length → (c = 2 * pos + 1 ∨ c = 2 * pos + 2) →
      kAt key l (parentIdx pos) ≤ kAt key l c) →
    (siftdown key l s pos).length = l.length ∧
    List.Perm (siftdown key l s pos) l ∧
    (∀ m, underRoot s m = false →
      (siftdown key l s pos).getD m default = l.getD m default) ∧
    (∀ j, j < l.length → s < j → underRoot s j = true →
      kAt key (siftdown key l s pos) (parentIdx j) ≤
        kAt key (siftdown key l s pos) j) := by
  induction pos using Nat.strong_induction_on with
  | _ pos ih =>
    intro l s hpos hu hinv hgp
    by_cases hsp : s < pos
    · by_cases hlt : key (l.getD pos default) < key (l.getD (parentIdx pos) default)
      · -- the item is smaller than its parent: exchange and recurse
        have heq : siftdown key l s pos =
            siftdown key (swapAt l pos (parentIdx pos)) s (parentIdx pos) := by
          rw [siftdown, dif_pos hsp, if_pos hlt]
        have hpos0 : 0 < pos := Nat.lt_of_le_of_lt (Nat.zero_le s) hsp
        have hplt : parentIdx pos < pos := parentIdx_lt hpos0
        have hplen : parentIdx pos < l.length := Nat.lt_trans hplt hpos
        have hup : underRoot s (parentIdx pos) = true := underRoot_parent hsp hu
        have hnep : pos ≠ parentIdx pos := Nat.ne_of_gt hplt
        have hlen2 : (swapAt l pos (parentIdx pos)).length = l.length := length_swapAt _ _ _
        have v1 : kAt key (swapAt l pos (parentIdx pos)) (parentIdx pos) = kAt key l pos :=
          kAt_swapAt_fst key l pos (parentIdx pos) hplen
        have v2 : kAt key (swapAt l pos (parentIdx pos)) pos = kAt key l (parentIdx pos) :=
          kAt_swapAt_snd key l pos (parentIdx pos) hpos hnep
        have vother : ∀ m, m ≠ pos → m ≠ parentIdx pos →
            kAt key (swapAt l pos (parentIdx pos)) m = kAt key l m := fun m h1 h2 =>
          kAt_swapAt_other key l pos (parentIdx pos) m h1 h2
        -- the invariant for the recursive call
        have hinv2 : ∀ j, j < (swapAt l pos (parentIdx pos)).length → s < j →
            underRoot s j = true → j ≠ parentIdx pos →
            kAt key (swapAt l pos (parentIdx pos)) (parentIdx j) ≤
              kAt key (swapAt l pos (parentIdx pos)) j := by
          intro j hj hsj huj hjp
          rw [hlen2] at hj
          by_cases hjpos : j = pos
          · subst hjpos
            rw [v1, v2]
            exact Int.le_of_lt hlt
          · by_cases hpj : parentIdx j = pos
            · -- j is a child of pos
              have hj0 : 0 < j := Nat.lt_of_le_of_lt (Nat.zero_le s) hsj
              have hcj : j = 2 * pos + 1 ∨ j = 2 * pos + 2 := by
                have := child_of_parentIdx hj0
                rw [hpj] at this
                exact this
              have hjnp : j ≠ parentIdx pos := hjp
              rw [hpj, v2, vother j hjpos hjnp]
              exact hgp hsp j hj hcj
            · by_cases hpj2 : parentIdx j = parentIdx pos
              · -- j is the sibling of pos (or shares its parent)
                rw [hpj2, v1, vother j hjpos hjp]
                have h1 : kAt key l (parentIdx j) ≤ kAt key l j :=
                  hinv j hj hsj huj hjpos
                rw [hpj2] at h1
                exact Int.le_trans (Int.le_of_lt hlt) h1
              · rw [vother _ hpj hpj2, vother j hjpos hjp]
                exact hinv j hj hsj huj hjpos
        -- the grandparent bound for the recursive call
        have hgp2 : s < parentIdx pos →
            ∀ c, c < (swapAt l pos (parentIdx pos)).length →
            (c = 2 * parentIdx pos + 1 ∨ c = 2 * parentIdx pos + 2) →
            kAt key (swapAt l pos (parentIdx pos)) (parentIdx (parentIdx pos)) ≤
              kAt key (swapAt l pos (parentIdx pos)) c := by
          intro hsp2 c hc hcc
          rw [hlen2] at hc
          have hp0 : 0 < parentIdx pos := Nat.lt_of_le_of_lt (Nat.zero_le s) hsp2
          have hg_lt : parentIdx (parentIdx pos) < parentIdx pos := parentIdx_lt hp0
          have hgne1 : parentIdx (parentIdx pos) ≠ pos := by omega
          have hgne2 : parentIdx (parentIdx pos) ≠ parentIdx pos := Nat.ne_of_lt hg_lt
          rw [vother _ hgne1 hgne2]
          have hedge_p : kAt key l (parentIdx (parentIdx pos)) ≤ kAt key l (parentIdx pos) :=
            hinv (parentIdx pos) hplen hsp2 hup (Ne.symm hnep)
          by_cases hcpos : c = pos
          · subst hcpos
            rw [v2]
            exact hedge_p
          · have hcnep : c ≠ parentIdx pos := by omega
            rw [vother c hcpos hcnep]
            have hsc : s < c := by omega
            have huc : underRoot s c = true := underRoot_child hup hcc
            have h2 : kAt key l (parentIdx c) ≤ kAt key l c := hinv c hc hsc huc hcpos
            rw [parentIdx_of_child hcc] at h2
            exact Int.le_trans hedge_p h2
        obtain ⟨clen, cperm, cuntouched, cedges⟩ :=
          ih (parentIdx pos) hplt (swapAt l pos (parentIdx pos)) s
            (by rw [hlen2]; exact hplen) hup hinv2 hgp2
        refine ⟨?_, ?_, ?_, ?_⟩
        · rw [heq, clen, hlen2]
        · rw [heq]
          exact cperm.trans (swapAt_perm l pos (parentIdx pos) hpos hplen)
        · intro m hm
          have hmpos : m ≠ pos := by
            intro hcon
            rw [hcon] at hm
            rw [hu] at hm
            exact Bool.true_eq_false.mp hm
          have hmp : m ≠ parentIdx pos := by
            intro hcon
            rw [hcon] at hm
            rw [hup] at hm
            exact Bool.true_eq_false.mp hm
          rw [heq, cuntouched m hm]
          simpa [kAt] using getD_swapAt_other l pos (parentIdx pos) m hmpos hmp
        · intro j hj hsj huj
          rw [heq]
          exact cedges j (by rw [hlen2]; exact hj) hsj huj
      · -- the item is in place already
        have heq : siftdown key l s pos = l := by
          rw [siftdown, dif_pos hsp, if_neg hlt]
        refine ⟨by rw [heq], by rw [heq], by intro m _; rw [heq], ?_⟩
        intro j hj hsj huj
        rw [heq]
        by_cases hjpos : j = pos
        · subst hjpos
          exact Int.not_lt.mp hlt
        · exact hinv j hj hsj huj hjpos
    · -- pos is the subtree root: nothing to do
      have heq : siftdown key l s pos = l := by
        rw [siftdown, dif_neg hsp]
      refine ⟨by rw [heq], by rw [heq], by intro m _; rw [heq], ?_⟩
      intro j hj hsj huj
      rw [heq]
      have hjpos : j ≠ pos := by
        have : pos ≤ s := Nat.le_of_not_lt hsp
        omega
      exact hinv j hj hsj huj hjpos

theorem childSel_mem (l : List α) (pos : Nat) :
    childSel key l pos = 2 * pos + 1 ∨ childSel key l pos = 2 * pos + 2 := by
  unfold childSel
  split
  · exact Or.inr rfl
  · exact Or.inl rfl

theorem childSel_lt_length (l : List α) (pos : Nat) (h : 2 * pos + 1 < l.length) :
    childSel key l pos < l.length := by
  unfold childSel
  split
  · next hcond => exact hcond.1
  · exact h

/-- The selected child carries the smaller key of the (up to two) children. -/
theorem childSel_min (l : List α) (pos : Nat) :
    ∀ d, (d = 2 * pos + 1 ∨ d = 2 * pos + 2) → d < l.length →
      kAt key l (childSel key l pos) ≤ kAt key l d := by
  intro d hd hdlen
  simp only [kAt]
  unfold childSel
  split
  · next hcond =>
    rcases hd with rfl | rfl
    · exact not_lt.mp hcond.2
    · exact le_refl _
  · next hcond =>
    rcases hd with rfl | rfl
    · exact le_refl _
    · have hlt : key (l.getD (2 * pos + 1) default) < key (l.getD (2 * pos + 2) default) := by
        by_contra hnot
        exact hcond ⟨hdlen, hnot⟩
      exact Int.le_of_lt hlt

/-- Full specification of the descent loop of `_siftup`: starting from a
state where every pair inside the subtree below `startpos` not involving the
hole `pos` is in order (plus the grandparent bound on the hole's children),
the final list is an in-order permutation touching only that subtree. -/
theorem siftupAux_spec (n : Nat) : ∀ (l : List α) (s pos : Nat),
    l.length - pos ≤ n →
    pos < l.length → underRoot s pos = true →
    (∀ j, j < l.length → s < j → underRoot s j = true → j ≠ pos → parentIdx j ≠ pos →
      kAt key l (parentIdx j) ≤ kAt key l j) →
    (s < pos → ∀ c, c < l.length → (c = 2 * pos + 1 ∨ c = 2 * pos + 2) →
      kAt key l (parentIdx pos) ≤ kAt key l c) →
    (siftupAux key l s pos).length = l.length ∧
    List.Perm (siftupAux key l s pos) l ∧
    (∀ m, underRoot s m = false →
      (siftupAux key l s pos).getD m default = l.getD m default) ∧
    (∀ j, j < l.length → s < j → underRoot s j = true →
      kAt key (siftupAux key l s pos) (parentIdx j) ≤
        kAt key (siftupAux key l s pos) j) := by
  induction n with
  | zero =>
    intro l s pos hn hpos hu hinv hgp
    omega
  | succ n ihn =>
    intro l s pos hn hpos hu hinv hgp
    by_cases hc : 2 * pos + 1 < l.length
    · -- descend one level along the smaller-child path
      have heq : siftupAux key l s pos =
          siftupAux key (swapAt l pos (childSel key l pos)) s (childSel key l pos) := by
        rw [siftupAux, dif_pos hc]
      have hcsel := childSel_mem key l pos
      have hclen : childSel key l pos < l.length := childSel_lt_length key l pos hc
      have hcgt : pos < childSel key l pos := by omega
      have hcne : pos ≠ childSel key l pos := by omega
      have huc : underRoot s (childSel key l pos) = true := underRoot_child hu hcsel
      have hlen2 : (swapAt l pos (childSel key l pos)).length = l.length := length_swapAt _ _ _
      have v1 : kAt key (swapAt l pos (childSel key l pos)) (childSel key l pos) = kAt key l pos :=
        kAt_swapAt_fst key l pos (childSel key l pos) hclen
      have v2 : kAt key (swapAt l pos (childSel key l pos)) pos = kAt key l (childSel key l pos) :=
        kAt_swapAt_snd key l pos (childSel key l pos) hpos hcne
      have vother : ∀ m, m ≠ pos → m ≠ childSel key l pos →
          kAt key (swapAt l pos (childSel key l pos)) m = kAt key l m := fun m h1 h2 =>
        kAt_swapAt_other key l pos (childSel key l pos) m h1 h2
      have hinv2 : ∀ j, j < (swapAt l pos (childSel key l pos)).length → s < j →
          underRoot s j = true → j ≠ childSel key l pos → parentIdx j ≠ childSel key l pos →
          kAt key (swapAt l pos (childSel key l pos)) (parentIdx j) ≤
            kAt key (swapAt l pos (childSel key l pos)) j := by
        intro j hj hsj huj hjc hpjc
        rw [hlen2] at hj
        by_cases hjpos : j = pos
        · -- the hole slot now holds the promoted child
          subst hjpos
          have hsp : s < j := hsj
          have hj0 : 0 < j := by omega
          have hpar_ne1 : parentIdx j ≠ j := Nat.ne_of_lt (parentIdx_lt hj0)
          have hpar_ne2 : parentIdx j ≠ childSel key l j := by
            have := parentIdx_lt hj0
            omega
          rw [vother _ hpar_ne1 hpar_ne2, v2]
          exact hgp hsp _ hclen hcsel
        · by_cases hpj : parentIdx j = pos
          · -- j is the sibling of the selected child
            have hj0 : 0 < j := by omega
            have hcj : j = 2 * pos + 1 ∨ j = 2 * pos + 2 := by
              have := child_of_parentIdx hj0
              rw [hpj] at this
              exact this
            rw [hpj, v2, vother j hjpos hjc]
            exact childSel_min key l pos j hcj hj
          · rw [vother _ hpj hpjc, vother j hjpos hjc]
            exact hinv j hj hsj huj hjpos hpj
      have hgp2 : s < childSel key l pos →
          ∀ d, d < (swapAt l pos (childSel key l pos)).length →
          (d = 2 * childSel key l pos + 1 ∨ d = 2 * childSel key l pos + 2) →
          kAt key (swapAt l pos (childSel key l pos)) (parentIdx (childSel key l pos)) ≤
            kAt key (swapAt l pos (childSel key l pos)) d := by
        intro _ d hd hdd
        rw [hlen2] at hd
        have hpc : parentIdx (childSel key l pos) = pos := parentIdx_of_child hcsel
        have hd_ne1 : d ≠ pos := by omega
        have hd_ne2 : d ≠ childSel key l pos := by omega
        rw [hpc, v2, vother d hd_ne1 hd_ne2]
        have hsd : s < d := by
          have := underRoot_le hu
          omega
        have hud : underRoot s d = true := underRoot_child huc hdd
        have h2 := hinv d hd hsd hud hd_ne1 (by rw [parentIdx_of_child hdd]; omega)
        rw [parentIdx_of_child hdd] at h2
        exact h2
      obtain ⟨clen, cperm, cuntouched, cedges⟩ :=
        ihn (swapAt l pos (childSel key l pos)) s (childSel key l pos)
          (by omega) (by rw [hlen2]; exact hclen) huc hinv2 hgp2
      refine ⟨?_, ?_, ?_, ?_⟩
      · rw [heq, clen, hlen2]
      · rw [heq]
        exact cperm.trans (swapAt_perm l pos (childSel key l pos) hpos hclen)
      · intro m hm
        have hmpos : m ≠ pos := by
          intro hcon
          rw [hcon, hu] at hm
          exact Bool.true_eq_false.mp hm
        have hmc : m ≠ childSel key l pos := by
          intro hcon
          rw [hcon, huc] at hm
          exact Bool.true_eq_false.mp hm
        rw [heq, cuntouched m hm]
        simpa [kAt] using getD_swapAt_other l pos (childSel key l pos) m hmpos hmc
      · intro j hj hsj huj
        rw [heq]
        exact cedges j (by rw [hlen2]; exact hj) hsj huj
    · -- the hole reached a leaf: restore with `_siftdown`
      have heq : siftupAux key l s pos = siftdown key l s pos := by
        rw [siftupAux, dif_neg hc]
      have hinv3 : ∀ j, j < l.length → s < j → underRoot s j = true → j ≠ pos →
          kAt key l (parentIdx j) ≤ kAt key l j := by
        intro j hj hsj huj hjpos
        by_cases hpj : parentIdx j = pos
        · exfalso
          have hj0 : 0 < j := by omega
          have := child_of_parentIdx hj0
          rw [hpj] at this
          omega
        · exact hinv j hj hsj huj hjpos hpj
      obtain ⟨clen, cperm, cuntouched, cedges⟩ :=
        siftdown_spec key pos l s hpos hu hinv3 hgp
      rw [heq]
      exact ⟨clen, cperm, cuntouched, cedges⟩

/-- `heappush` preserves the heap invariant and is insertion up to permutation. -/
theorem heappush_spec (l : List α) (x : α) (hinv : heapInv key l) :
    heapInv key (heappush key l x) ∧ List.Perm (heappush key l x) (x :: l) ∧
      (heappush key l x).length = l.length + 1 := by
  have hpos : l.length < (l ++ [x]).length := by simp
  have hinv1 : ∀ j, j < (l ++ [x]).length → 0 < j → underRoot 0 j = true →
      j ≠ l.length → kAt key (l ++ [x]) (parentIdx j) ≤ kAt key (l ++ [x]) j := by
    intro j hj hj0 _ hjne
    have hjlen : j < l.length := by
      simp only [List.length_append, List.length_singleton] at hj
      omega
    have hp : parentIdx j < l.length := Nat.lt_trans (parentIdx_lt hj0) hjlen
    simp only [kAt]
    rw [getD_append_left _ _ _ hjlen, getD_append_left _ _ _ hp]
    exact hinv j hjlen hj0
  have hgp1 : 0 < l.length → ∀ c, c < (l ++ [x]).length →
      (c = 2 * l.length + 1 ∨ c = 2 * l.length + 2) →
      kAt key (l ++ [x]) (parentIdx l.length) ≤ kAt key (l ++ [x]) c := by
    intro _ c hc hcc
    simp only [List.length_append, List.length_singleton] at hc
    omega
  obtain ⟨clen, cperm, _, cedges⟩ :=
    siftdown_spec key l.length (l ++ [x]) 0 hpos (underRoot_zero _) hinv1 hgp1
  refine ⟨?_, cperm.trans (List.perm_append_singleton x l), by simp [heappush, clen]⟩
  intro j hj hj0
  have hj2 : j < (l ++ [x]).length := by
    rw [heappush] at hj
    rw [← clen]
    exact hj
  exact cedges j hj2 hj0 (underRoot_zero j)

/-- In a valid heap the root key is minimal among all slots. -/
theorem heapInv_root_min (l : List α) (hinv : heapInv key l) :
    ∀ j, j < l.length → key (l.getD 0 default) ≤ key (l.getD j default) := by
  intro j
  induction j using Nat.strong_induction_on with
  | _ j ihj =>
    intro hj
    rcases Nat.eq_zero_or_pos j with h0 | h0
    · subst h0
      exact le_refl _
    · have hp := parentIdx_lt h0
      exact le_trans (ihj _ hp (Nat.lt_trans hp hj)) (hinv j hj h0)

/-- In a valid heap the root key is minimal among all members. -/
theorem heapInv_root_min_mem (l : List α) (hinv : heapInv key l) :
    ∀ y ∈ l, key (l.getD 0 default) ≤ key y := by
  intro y hy
  obtain ⟨j, hj, rfl⟩ := List.getElem_of_mem hy
  have hDJ : l.getD j default = l[j] := by
    simp [List.getD_eq_getElem?_getD, List.getElem?_eq_getElem hj]
  rw [← hDJ]
  exact heapInv_root_min key l hinv j hj

theorem getLastD_eq_getLast (l : List α) (h : l ≠ []) :
    l.getLastD default = l.getLast h := by
  cases l with
  | nil => exact absurd rfl h
  | cons a as => simp [List.getLastD_eq_getLast?, List.getLast?_eq_getLast]

/-- `heappop` on a nonempty valid heap returns the root (a minimal element)
and a valid heap of the remaining elements. -/
theorem heappop_spec (l : List α) (hinv : heapInv key l) (hne : l ≠ []) :
    ∃ rest, heappop key l = some (l.getD 0 default, rest) ∧
      List.Perm l (l.getD 0 default :: rest) ∧ heapInv key rest ∧
      rest.length + 1 = l.length := by
  match l with
  | [x] =>
    refine ⟨[], rfl, by simp, ?_, by simp⟩
    intro j hj _
    simp at hj
  | x :: y :: xs =>
    have htne : (y :: xs) ≠ [] := by simp
    have hLne : (x :: y :: xs) ≠ [] := by simp
    have hlast : (x :: y :: xs).getLastD default = (y :: xs).getLast htne := by
      rw [getLastD_eq_getLast _ hLne]
      exact List.getLast_cons htne
    -- the backing list after `lastelt = heap.pop(); heap[0] = lastelt`
    have hrest0 : ((x :: y :: xs).dropLast).set 0 ((x :: y :: xs).getLastD default) =
        (y :: xs).getLast htne :: (y :: xs).dropLast := by
      rw [hlast]
      rfl
    have hlen0 : ((y :: xs).getLast htne :: (y :: xs).dropLast).length = (y :: xs).length := by
      simp
    have hpos0 : (0 : Nat) < ((y :: xs).getLast htne :: (y :: xs).dropLast).length := by
      simp
    -- slots other than the root keep their original entries
    have htransfer : ∀ i, 0 < i →
        i < ((y :: xs).getLast htne :: (y :: xs).dropLast).length →
        ((y :: xs).getLast htne :: (y :: xs).dropLast).getD i default =
          (x :: y :: xs).getD i default := by
      intro i hi0 hilen
      have hid : i < ((x :: y :: xs).dropLast).length := by
        simpa using hilen
      have h1 : ((y :: xs).getLast htne :: (y :: xs).dropLast) =
          ((x :: y :: xs).dropLast).set 0 ((x :: y :: xs).getLastD default) := hrest0.symm
      rw [h1, getD_set_ne _ _ _ _ (by omega)]
      have hlt : i < (x :: y :: xs).length := by
        have := List.length_dropLast (x :: y :: xs)
        omega
      simp only [List.getD_eq_getElem?_getD, List.getElem?_eq_getElem hid,
        List.getElem?_eq_getElem hlt, Option.getD_some]
      exact List.getElem_dropLast (x :: y :: xs) i hid
    have hinv1 : ∀ j, j < ((y :: xs).getLast htne :: (y :: xs).dropLast).length →
        0 < j → underRoot 0 j = true → j ≠ 0 → parentIdx j ≠ 0 →
        kAt key ((y :: xs).getLast htne :: (y :: xs).dropLast) (parentIdx j) ≤
          kAt key ((y :: xs).getLast htne :: (y :: xs).dropLast) j := by
      intro j hj hj0 _ _ hpj0
      have hplt : parentIdx j < j := parentIdx_lt hj0
      have hjorig : j < (x :: y :: xs).length := by
        have := List.length_dropLast (x :: y :: xs)
        simp only [hlen0] at hj
        simp only [List.length_cons] at *
        omega
      simp only [kAt]
      rw [htransfer j hj0 hj, htransfer (parentIdx j) (Nat.pos_of_ne_zero hpj0)
        (Nat.lt_trans hplt hj)]
      exact hinv j hjorig hj0
    have hgp1 : (0 : Nat) < 0 → ∀ c,
        c < ((y :: xs).getLast htne :: (y :: xs).dropLast).length →
        (c = 2 * 0 + 1 ∨ c = 2 * 0 + 2) →
        kAt key ((y :: xs).getLast htne :: (y :: xs).dropLast) (parentIdx 0) ≤
          kAt key ((y :: xs).getLast htne :: (y :: xs).dropLast) c := by
      intro h0
      exact absurd h0 (lt_irrefl 0)
    obtain ⟨clen, cperm, _, cedges⟩ :=
      siftupAux_spec key (((y :: xs).getLast htne :: (y :: xs).dropLast).length)
        ((y :: xs).getLast htne :: (y :: xs).dropLast) 0 0 (by omega) hpos0
        (underRoot_zero 0) hinv1 hgp1
    refine ⟨siftup key (((x :: y :: xs).dropLast).set 0
      ((x :: y :: xs).getLastD default)) 0, rfl, ?_, ?_, ?_⟩
    · -- permutation: original list ~ returned root :: new heap
      have hperm1 : List.Perm (y :: xs) ((y :: xs).getLast htne :: (y :: xs).dropLast) := by
        conv_lhs => rw [← List.dropLast_append_getLast htne]
        exact List.perm_append_singleton _ _
      have hperm2 : List.Perm ((y :: xs).getLast htne :: (y :: xs).dropLast)
          (siftup key (((x :: y :: xs).dropLast).set 0 ((x :: y :: xs).getLastD default)) 0) := by
        rw [hrest0]
        exact (by simpa [siftup] using cperm : List.Perm
          (siftup key ((y :: xs).getLast htne :: (y :: xs).dropLast) 0)
          ((y :: xs).getLast htne :: (y :: xs).dropLast)).symm
      have : (x :: y :: xs).getD 0 default = x := rfl
      rw [this]
      exact (hperm1.trans hperm2).cons x
    · -- heap invariant for the new backing list
      intro j hj hj0
      rw [hrest0] at hj ⊢
      have hj2 : j < ((y :: xs).getLast htne :: (y :: xs).dropLast).length := by
        have hlp : (siftup key ((y :: xs).getLast htne :: (y :: xs).dropLast) 0).length =
            ((y :: xs).getLast htne :: (y :: xs).dropLast).length := by
          simpa [siftup] using clen
        rw [hlp] at hj
        exact hj
      have := cedges j hj2 hj0 (underRoot_zero j)
      simpa [siftup, kAt] using this
    · -- length bookkeeping
      rw [hrest0]
      have : (siftup key ((y :: xs).getLast htne :: (y :: xs).dropLast) 0).length =
          ((y :: xs).getLast htne :: (y :: xs).dropLast).length := by
        simpa [siftup] using clen
      rw [this, hlen0]
      simp

/-- Edges whose parent slot is at or beyond the threshold `m` are in order. -/
def partialInv (m : Nat) (l : List α) : Prop :=
  ∀ j, j < l.length → 0 < j → m ≤ parentIdx j →
    kAt key l (parentIdx j) ≤ kAt key l j

/-- Slots at or beyond `n / 2` have no children, so `partialInv (n / 2)` is
vacuously true: this is why `heapify` starts at `n // 2 - 1`. -/
theorem partialInv_top (l : List α) : partialInv key (l.length / 2) l := by
  intro j hj hj0 hpj
  exfalso
  have := child_of_parentIdx hj0
  simp only [parentIdx] at *
  omega

theorem underRoot_false_parent {s j : Nat} (hj0 : 0 < j) (h : underRoot s j = false) :
    underRoot s (parentIdx j) = false := by
  by_contra hcon
  have hp : underRoot s (parentIdx j) = true := by
    revert hcon
    cases underRoot s (parentIdx j) <;> simp
  have := underRoot_child hp (child_of_parentIdx hj0)
  rw [h] at this
  exact Bool.false_ne_true this

theorem le_parentIdx_of_underRoot {s j : Nat} (hsj : s < j) (h : underRoot s j = true) :
    s ≤ parentIdx j :=
  underRoot_le (underRoot_parent hsj h)

/-- One `_siftup(x, i)` pass of `heapify`: if every edge with parent slot
beyond `i` is in order, afterwards every edge with parent slot at or beyond
`i` is, and the list is merely permuted. -/
theorem siftup_threshold (l : List α) (i : Nat) (hpi : partialInv key (i + 1) l) :
    List.Perm (siftup key l i) l ∧ (siftup key l i).length = l.length ∧
      partialInv key i (siftup key l i) := by
  by_cases hc : 2 * i + 1 < l.length
  · have hiLen : i < l.length := by omega
    have hinv1 : ∀ j, j < l.length → i < j → underRoot i j = true → j ≠ i →
        parentIdx j ≠ i → kAt key l (parentIdx j) ≤ kAt key l j := by
      intro j hj hij huj _ hpj
      have hj0 : 0 < j := by omega
      have hple : i ≤ parentIdx j := le_parentIdx_of_underRoot hij huj
      exact hpi j hj hj0 (by omega)
    have hgp1 : i < i → ∀ c, c < l.length → (c = 2 * i + 1 ∨ c = 2 * i + 2) →
        kAt key l (parentIdx i) ≤ kAt key l c := fun h => absurd h (lt_irrefl i)
    obtain ⟨clen, cperm, cuntouched, cedges⟩ :=
      siftupAux_spec key (l.length - i) l i i (le_refl _) hiLen (underRoot_self i) hinv1 hgp1
    have hlen : (siftup key l i).length = l.length := by
      simpa [siftup] using clen
    refine ⟨by simpa [siftup] using cperm, hlen, ?_⟩
    intro j hj hj0 hpj
    have hjl : j < l.length := by
      rw [hlen] at hj
      exact hj
    by_cases huj : underRoot i j = true
    · have hij : i < j := by
        have hle := underRoot_le huj
        have hplt := parentIdx_lt hj0
        omega
      have := cedges j hjl hij huj
      simpa [siftup] using this
    · have hujF : underRoot i j = false := by
        revert huj
        cases underRoot i j <;> simp
      have hpjF : underRoot i (parentIdx j) = false := underRoot_false_parent hj0 hujF
      have e1 : (siftup key l i).getD j default = l.getD j default := by
        simpa [siftup] using cuntouched j hujF
      have e2 : (siftup key l i).getD (parentIdx j) default = l.getD (parentIdx j) default := by
        simpa [siftup] using cuntouched (parentIdx j) hpjF
      have hpne : parentIdx j ≠ i := by
        intro hcon
        have hchild : j = 2 * i + 1 ∨ j = 2 * i + 2 := by
          have := child_of_parentIdx hj0
          rw [hcon] at this
          exact this
        have : underRoot i j = true := underRoot_child (underRoot_self i) hchild
        rw [hujF] at this
        exact Bool.false_ne_true this
      simp only [kAt] at *
      rw [e1, e2]
      exact hpi j hjl hj0 (by omega)
  · have heq : siftup key l i = l := by
      unfold siftup
      rw [siftupAux, dif_neg hc, siftdown, dif_neg (lt_irrefl i)]
    rw [heq]
    refine ⟨List.Perm.refl l, rfl, ?_⟩
    intro j hj hj0 hpj
    by_cases hpje : parentIdx j = i
    · exfalso
      have := child_of_parentIdx hj0
      omega
    · exact hpi j hj hj0 (by omega)

theorem heapifyAux_spec : ∀ (m : Nat) (l : List α), partialInv key m l →
    List.Perm (heapifyAux key l m) l ∧ partialInv key 0 (heapifyAux key l m) := by
  intro m
  induction m with
  | zero =>
    intro l hp
    exact ⟨List.Perm.refl l, hp⟩
  | succ i ih =>
    intro l hp
    obtain ⟨sperm, _, spi⟩ := siftup_threshold key l i hp
    obtain ⟨hperm, hpi0⟩ := ih (siftup key l i) spi
    exact ⟨hperm.trans sperm, hpi0⟩

/-- `heapq.heapify` permutes its input and establishes the heap invariant. -/
theorem heapify_spec (l : List α) :
    List.Perm (heapify key l) l ∧ heapInv key (heapify key l) := by
  obtain ⟨hperm, hpi⟩ := heapifyAux_spec key (l.length / 2) l (partialInv_top key l)
  refine ⟨hperm, ?_⟩
  intro j hj hj0
  exact hpi j hj hj0 (Nat.zero_le _)

theorem heapInv_nil : heapInv key ([] : List α) := by
  intro j hj
  simp at hj

/-- Pushing a sequence of items onto a valid heap keeps it valid. -/
theorem heapInv_foldl_heappush (es : List α) :
    ∀ h, heapInv key h → heapInv key (es.foldl (heappush key) h) := by
  induction es with
  | nil =>
    intro h hh
    exact hh
  | cons e es ih =>
    intro h hh
    exact ih _ (heappush_spec key h e hh).1

theorem popAllAux_spec : ∀ (fuel : Nat) (l : List α), l.length ≤ fuel → heapInv key l →
    List.Perm (popAllAux key fuel l) l ∧
      List.Pairwise (fun a b => key a ≤ key b) (popAllAux key fuel l) := by
  intro fuel
  induction fuel with
  | zero =>
    intro l hl _
    have hnil : l = [] := List.eq_nil_of_length_eq_zero (Nat.le_zero.mp hl)
    subst hnil
    exact ⟨by simp [popAllAux], by simp [popAllAux]⟩
  | succ n ih =>
    intro l hl hinv
    by_cases hne : l = []
    · subst hne
      refine ⟨by simp [popAllAux, heappop], by simp [popAllAux, heappop]⟩
    · obtain ⟨rest, hpop, hperm, hinvr, hlen⟩ := heappop_spec key l hinv hne
      have hrl : rest.length ≤ n := by omega
      obtain ⟨rperm, rpair⟩ := ih rest hrl hinvr
      have heq : popAllAux key (n + 1) l = l.getD 0 default :: popAllAux key n rest := by
        simp [popAllAux, hpop]
      rw [heq]
      refine ⟨(rperm.cons _).trans hperm.symm, ?_⟩
      refine List.Pairwise.cons ?_ rpair
      intro y hy
      have hyr : y ∈ rest := rperm.mem_iff.mp hy
      have hyl : y ∈ l := hperm.mem_iff.mpr (List.mem_cons_of_mem _ hyr)
      exact heapInv_root_min_mem key l hinv y hyl

/-- Draining a valid heap by iterated `heappop` yields all its elements in
non-decreasing key order. -/
theorem popAll_spec (l : List α) (hinv : heapInv key l) :
    List.Perm (popAll key l) l ∧
      List.Pairwise (fun a b => key a ≤ key b) (popAll key l) :=
  popAllAux_spec key l.length l (le_refl _) hinv

end HeapSpecs

/-! ### The Event Store, the Discord environment, and the dispatch loop -/

/-- `SELECT canceled FROM Scheduler WHERE id=$id` followed by
`row is None` / `row[0]` (scheduler.py lines 845-860). -/
def dbSelectCanceled (db : List SavedScheduleEvent) (i : Int) : Option Bool :=
  (db.find? (fun r => r.id == i)).map (fun r => r.canceled)

/-- `UPDATE Scheduler SET canceled=1 WHERE id=$id` (scheduler.py lines 943-952). -/
def dbMarkCanceled (db : List SavedScheduleEvent) (i : Int) : List SavedScheduleEvent :=
  db.map (fun r => if r.id = i then { r with canceled := true } else r)

/-- `UPDATE Scheduler SET next_event_time=$t WHERE id=$id`
(scheduler.py lines 957-966). -/
def dbUpdateTime (db : List SavedScheduleEvent) (i : Int) (t : Int) :
    List SavedScheduleEvent :=
  db.map (fun r => if r.id = i then { r with next_event_time := t } else r)

/-- The Discord-side state consulted by `send_scheduled_message`
(scheduler.py lines 862-909): presence of guild, channel and author,
permissions, and whether `channel.send` returns or raises. -/
structure Env where
  guild_found : Bool
  channel_found : Bool
  channel_has_send : Bool
  author_in_guild : Bool
  author_fetch_ok : Bool
  author_can_read : Bool
  author_can_send : Bool
  bot_can_read : Bool
  bot_can_send : Bool
  author_mention_everyone : Bool
  send_ok : Bool
deriving DecidableEq, Repr

/-- Result of one `send_scheduled_message` call: whether `channel.send` (the
Notifier proper) was reached, the mention policy used, and the Python
outcome (`ok b` = returned `b`; `error` = an exception escaped the call). -/
structure SendOutcome where
  invoked_notifier : Bool
  mention_all : Bool
  result : Except Unit Bool
deriving Repr

/-- `Scheduler.send_scheduled_message` (scheduler.py lines 836-911), with the
early-return ladder in source order: the cancellation re-check against the
store runs first, before every Discord lookup and before any send. -/
def send_scheduled_message (db : List SavedScheduleEvent) (env : Env)
    (event : SavedScheduleEvent) : SendOutcome :=
  match dbSelectCanceled db event.id with
  | none => ⟨false, false, .ok false⟩
  | some true => ⟨false, false, .ok false⟩
  | some false =>
    if ¬ env.guild_found then ⟨false, false, .ok false⟩
    else if ¬ env.channel_found then ⟨false, false, .ok false⟩
    else if ¬ env.channel_has_send then ⟨false, false, .ok false⟩
    else if ¬ (env.author_in_guild ∨ env.author_fetch_ok) then ⟨false, false, .ok false⟩
    else if ¬ (env.author_can_read ∧ env.author_can_send) then ⟨false, false, .ok false⟩
    else if ¬ (env.bot_can_read ∧ env.bot_can_send) then ⟨false, false, .ok false⟩
    else if env.send_ok then
      ⟨true, event.mention && env.author_mention_everyone, .ok true⟩
    else
      ⟨true, event.mention && env.author_mention_everyone, .error ()⟩

/-- Observable state after one pass of the inner `while` body of
`Scheduler._scheduler_event_loop` (scheduler.py lines 913-973). -/
structure IterResult where
  heap : List SavedScheduleEvent
  db : List SavedScheduleEvent
  popped : Option SavedScheduleEvent
  send_called : Bool
  delivered : Bool
  success : Bool
  should_sleep : Bool
deriving Repr

/-- The local `success` flag of the drain pass: the value returned by
`send_scheduled_message`, or `False` when the call raised (the `except`
branch, scheduler.py lines 932-939). -/
def drainSuccess (db : List SavedScheduleEvent) (env : Env)
    (e : SavedScheduleEvent) : Bool :=
  match (send_scheduled_message db env e).result with
  | .ok b => b
  | .error _ => false

/-- One pass of the drain loop: pop the minimum; if its time has passed,
attempt delivery (`try`/`except` around the send turns an exception into
`success = False`), then either cancel in the store (failure or one-shot)
or write the recomputed repeat time back and re-push the updated copy;
otherwise re-push the unchanged event, leaving `should_sleep` true so the
drain stops for this wake. -/
def drainIter (db heap : List SavedScheduleEvent) (env : Env) (now : Int) : IterResult :=
  match heappop keyTime heap with
  | none => ⟨heap, db, none, false, false, false, true⟩
  | some (e, h2) =>
    if e.next_event_time < now then
      if drainSuccess db env e = false ∨ e.«repeat» = none then
        ⟨h2, dbMarkCanceled db e.id, some e, true,
         (send_scheduled_message db env e).invoked_notifier,
         drainSuccess db env e, false⟩
      else
        match e.do_repeat now with
        | .ok new_event =>
            ⟨heappush keyTime h2 new_event,
             dbUpdateTime db e.id new_event.next_event_time, some e, true,
             (send_scheduled_message db env e).invoked_notifier,
             drainSuccess db env e, false⟩
        | .error _ =>
            ⟨h2, db, some e, true,
             (send_scheduled_message db env e).invoked_notifier,
             drainSuccess db env e, true⟩
    else
      ⟨heappush keyTime h2 e, db, some e, false, false, false, true⟩

/-- Drain pass on an empty readiness queue: nothing happens. -/
theorem drainIter_none (db heap : List SavedScheduleEvent) (env : Env) (now : Int)
    (h : heappop keyTime heap = none) :
    drainIter db heap env now = ⟨heap, db, none, false, false, false, true⟩ := by
  unfold drainIter
  rw [h]

/-- Drain pass popping an event whose time has not yet passed: push it back
unchanged and go back to sleep. -/
theorem drainIter_future (db heap : List SavedScheduleEvent) (env : Env) (now : Int)
    (e : SavedScheduleEvent) (h2 : List SavedScheduleEvent)
    (hpop : heappop keyTime heap = some (e, h2)) (hge : ¬ e.next_event_time < now) :
    drainIter db heap env now =
      ⟨heappush keyTime h2 e, db, some e, false, false, false, true⟩ := by
  unfold drainIter
  rw [hpop]
  dsimp only
  rw [if_neg hge]

/-- Drain pass taking the cancel branch (failed delivery or one-shot). -/
theorem drainIter_cancel (db heap : List SavedScheduleEvent) (env : Env) (now : Int)
    (e : SavedScheduleEvent) (h2 : List SavedScheduleEvent)
    (hpop : heappop keyTime heap = some (e, h2)) (hlt : e.next_event_time < now)
    (hguard : drainSuccess db env e = false ∨ e.«repeat» = none) :
    drainIter db heap env now =
      ⟨h2, dbMarkCanceled db e.id, some e, true,
       (send_scheduled_message db env e).invoked_notifier,
       drainSuccess db env e, false⟩ := by
  unfold drainIter
  rw [hpop]
  dsimp only
  rw [if_pos hlt, if_pos hguard]

/-- Drain pass taking the repeat branch (successful delivery of a repeating
event): the store gets the recomputed time and the updated copy is pushed. -/
theorem drainIter_repeat (db heap : List SavedScheduleEvent) (env : Env) (now : Int)
    (e new_event : SavedScheduleEvent) (h2 : List SavedScheduleEvent)
    (hpop : heappop keyTime heap = some (e, h2)) (hlt : e.next_event_time < now)
    (hsucc : drainSuccess db env e = true) (hrep : e.«repeat» ≠ none)
    (hdo : e.do_repeat now = .ok new_event) :
    drainIter db heap env now =
      ⟨heappush keyTime h2 new_event,
       dbUpdateTime db e.id new_event.next_event_time, some e, true,
       (send_scheduled_message db env e).invoked_notifier,
       drainSuccess db env e, false⟩ := by
  unfold drainIter
  rw [hpop]
  dsimp only
  rw [if_pos hlt, if_neg (by simp [hsucc, hrep]), hdo]

/-! ### Store lemmas -/

theorem find?_of_selectCanceled {db : List SavedScheduleEvent} {i : Int} {b : Bool}
    (h : dbSelectCanceled db i = some b) :
    ∃ r, db.find? (fun r => r.id == i) = some r ∧ r.canceled = b ∧ r.id = i := by
  unfold dbSelectCanceled at h
  cases hf : db.find? (fun r => r.id == i) with
  | none =>
    rw [hf] at h
    simp at h
  | some r =>
    rw [hf] at h
    simp at h
    refine ⟨r, rfl, h, ?_⟩
    have := List.find?_some hf
    simpa using this

theorem dbSelectCanceled_map (db : List SavedScheduleEvent)
    (f : SavedScheduleEvent → SavedScheduleEvent) (hid : ∀ r, (f r).id = r.id) (i : Int) :
    dbSelectCanceled (db.map f) i =
      (db.find? (fun r => r.id == i)).map (fun r => (f r).canceled) := by
  unfold dbSelectCanceled
  rw [List.find?_map]
  have hp : ((fun r : SavedScheduleEvent => r.id == i) ∘ f) =
      (fun r : SavedScheduleEvent => r.id == i) := by
    funext r
    simp [hid r]
  rw [hp, Option.map_map]
  rfl

/-- `canceled=1` written by any drain pass never reverts: marking any row
keeps an already-canceled row canceled. -/
theorem dbSelectCanceled_markCanceled_mono (db : List SavedScheduleEvent) (i j : Int)
    (h : dbSelectCanceled db i = some true) :
    dbSelectCanceled (dbMarkCanceled db j) i = some true := by
  obtain ⟨r, hf, hc, hid⟩ := find?_of_selectCanceled h
  unfold dbMarkCanceled
  rw [dbSelectCanceled_map db _ (fun r => by by_cases h : r.id = j <;> simp [h]) i, hf]
  by_cases hj : r.id = j
  · simp [hj]
  · simp [hj, hc]

/-- Marking a present row cancels it. -/
theorem dbSelectCanceled_markCanceled_self (db : List SavedScheduleEvent) (i : Int)
    (b : Bool) (h : dbSelectCanceled db i = some b) :
    dbSelectCanceled (dbMarkCanceled db i) i = some true := by
  obtain ⟨r, hf, _, hid⟩ := find?_of_selectCanceled h
  unfold dbMarkCanceled
  rw [dbSelectCanceled_map db _ (fun r => by by_cases h : r.id = i <;> simp [h]) i, hf]
  simp [hid]

/-- The repeat-time update writes no cancellation flag. -/
theorem dbSelectCanceled_updateTime (db : List SavedScheduleEvent) (i t j : Int) :
    dbSelectCanceled (dbUpdateTime db i t) j = dbSelectCanceled db j := by
  unfold dbUpdateTime
  rw [dbSelectCanceled_map db _ (fun r => by by_cases h : r.id = i <;> simp [h]) j]
  unfold dbSelectCanceled
  cases hf : db.find? (fun r => r.id == j) with
  | none => rfl
  | some r =>
    by_cases hj : r.id = i <;> simp [hj]

/-- `do_repeat` on an event with a repeat interval present. -/
theorem do_repeat_ok (e : SavedScheduleEvent) (r : ℚ) (h : e.«repeat» = some r) (t : Int) :
    e.do_repeat t = .ok ⟨e.id, e.message, e.guild_id, e.channel_id, e.author_id,
      pytrunc ((t : ℚ) + r * 60), some r, e.canceled, e.mention⟩ := by
  unfold SavedScheduleEvent.do_repeat
  rw [h]

/-- `heappush` on the empty heap. -/
theorem heappush_nil {α : Type} [Inhabited α] (key : α → Int) (x : α) :
    heappush key [] x = [x] := by
  unfold heappush
  rw [List.nil_append, List.length_nil, siftdown, dif_neg (lt_irrefl 0)]

/-- The `ORDER BY next_event_time` of the recovery query. -/
def byTime (a b : SavedScheduleEvent) : Prop :=
  a.next_event_time ≤ b.next_event_time

instance : DecidableRel byTime := fun a b => Int.decLe a.next_event_time b.next_event_time

/-- The recovery query of `Scheduler.cog_load` (scheduler.py lines 552-562):
`SELECT * FROM Scheduler WHERE canceled!=1 ORDER BY next_event_time`. -/
def loadActive (db : List SavedScheduleEvent) : List SavedScheduleEvent :=
  (db.filter (fun r => !r.canceled)).insertionSort byTime

/-- The readiness heap as `cog_load` leaves it before
`asyncio.create_task(self.scheduler_event_loop())` runs: the loaded rows,
bulk-heapified (scheduler.py lines 564-569). -/
def cog_load_heap (db : List SavedScheduleEvent) : List SavedScheduleEvent :=
  heapify keyTime (loadActive db)

/-! ### The repeat-field validation of the schedule modal -/

/-- The repeat field as `sanitize_response` sees it: the raw text is falsy
(empty), fails `float()` with `ValueError`, or parses to a number — the
payload is the already-rounded `round(float(v), 2)`. -/
inductive RepeatField where
  | empty : RepeatField
  | nonNumeric : RepeatField
  | numeric : ℚ → RepeatField
deriving DecidableEq, Repr

/-- The repeat-validation slice of `ScheduleModal.sanitize_response`
(scheduler.py lines 310-328).  `debug` is `DEBUG_MODE`; `error` carries the
`InvalidRepeat` reason. -/
def sanitizeRepeat (debug : Bool) (v : RepeatField) : Except String (Option ℚ) :=
  match v with
  | .empty => .ok none
  | .nonNumeric => .ok none
  | .numeric q =>
    if q ≤ 0 then .ok none
    else if q > 60 * 24 * 365 then .error "Repeat cannot be longer than a year."
    else if q < (if debug then 1/5 else 60) then
      .error (if debug then "Repeat cannot be less than 12 seconds (debug mode is active)."
              else "Repeat cannot be less than one hour.")
    else .ok (some q)

/-! ### Claim theorems -/

/-- C1: for every event whose `canceled` flag is true in the Event Store, no
drain pass invokes the Notifier for it: the store re-check at the top of
`send_scheduled_message` runs before any delivery attempt and returns
failure, even when a stale copy is popped from the Readiness Queue; the pass
also leaves the flag canceled, so every later pass behaves the same way. -/
theorem C1_canceled_event_never_delivered
    (db heap : List SavedScheduleEvent) (env : Env) (now : Int) (i : Int)
    (hc : dbSelectCanceled db i = some true) :
    (∀ e : SavedScheduleEvent, e.id = i →
      send_scheduled_message db env e = ⟨false, false, .ok false⟩) ∧
    (∀ e, (drainIter db heap env now).popped = some e → e.id = i →
      (drainIter db heap env now).delivered = false) ∧
    dbSelectCanceled (drainIter db heap env now).db i = some true := by
  have hsend : ∀ e : SavedScheduleEvent, e.id = i →
      send_scheduled_message db env e = ⟨false, false, .ok false⟩ := by
    intro e he
    unfold send_scheduled_message
    rw [he, hc]
  refine ⟨hsend, ?_, ?_⟩
  · intro e hpopped hei
    cases hpop : heappop keyTime heap with
    | none =>
      rw [drainIter_none db heap env now hpop] at hpopped
      exact absurd hpopped (by simp)
    | some pr =>
      obtain ⟨e0, h2⟩ := pr
      by_cases hlt : e0.next_event_time < now
      · by_cases hguard : drainSuccess db env e0 = false ∨ e0.«repeat» = none
        · rw [drainIter_cancel db heap env now e0 h2 hpop hlt hguard] at hpopped ⊢
          simp only at hpopped
          have he0 : e0 = e := by injection hpopped
          subst he0
          simp [hsend e0 hei]
        · rw [not_or] at hguard
          obtain ⟨r, hr⟩ := Option.ne_none_iff_exists'.mp hguard.2
          have hsucc : drainSuccess db env e0 = true := by
            cases hb : drainSuccess db env e0
            · exact absurd hb hguard.1
            · rfl
          rw [drainIter_repeat db heap env now e0 _ h2 hpop hlt hsucc hguard.2
            (do_repeat_ok e0 r hr now)] at hpopped
          simp only at hpopped
          have he0 : e0 = e := by injection hpopped
          subst he0
          exfalso
          have : drainSuccess db env e0 = false := by
            unfold drainSuccess
            rw [hsend e0 hei]
          rw [this] at hsucc
          exact Bool.false_ne_true hsucc
      · rw [drainIter_future db heap env now e0 h2 hpop hlt] at hpopped ⊢
  · cases hpop : heappop keyTime heap with
    | none =>
      rw [drainIter_none db heap env now hpop]
      exact hc
    | some pr =>
      obtain ⟨e0, h2⟩ := pr
      by_cases hlt : e0.next_event_time < now
      · by_cases hguard : drainSuccess db env e0 = false ∨ e0.«repeat» = none
        · rw [drainIter_cancel db heap env now e0 h2 hpop hlt hguard]
          exact dbSelectCanceled_markCanceled_mono db i e0.id hc
        · rw [not_or] at hguard
          obtain ⟨r, hr⟩ := Option.ne_none_iff_exists'.mp hguard.2
          have hsucc : drainSuccess db env e0 = true := by
            cases hb : drainSuccess db env e0
            · exact absurd hb hguard.1
            · rfl
          rw [drainIter_repeat db heap env now e0 _ h2 hpop hlt hsucc hguard.2
            (do_repeat_ok e0 r hr now)]
          simp only
          rw [dbSelectCanceled_updateTime]
          exact hc
      · rw [drainIter_future db heap env now e0 h2 hpop hlt]
        exact hc

/-- C5: a one-shot event (`repeat` absent) popped when due is canceled in the
store after the single delivery attempt of the pass, regardless of the
delivery outcome (`env` is arbitrary), and is not re-pushed. -/
theorem C5_oneshot_canceled_after_one_attempt
    (db heap : List SavedScheduleEvent) (env : Env) (now : Int)
    (e : SavedScheduleEvent) (rest : List SavedScheduleEvent) (b : Bool)
    (hpop : heappop keyTime heap = some (e, rest)) (hlt : e.next_event_time < now)
    (hrep : e.«repeat» = none) (hrow : dbSelectCanceled db e.id = some b) :
    drainIter db heap env now =
      ⟨rest, dbMarkCanceled db e.id, some e, true,
       (send_scheduled_message db env e).invoked_notifier,
       drainSuccess db env e, false⟩ ∧
    dbSelectCanceled (drainIter db heap env now).db e.id = some true ∧
    (drainIter db heap env now).heap = rest ∧
    (drainIter db heap env now).send_called = true := by
  have heq := drainIter_cancel db heap env now e rest hpop hlt (Or.inr hrep)
  refine ⟨heq, ?_, by rw [heq], by rw [heq]⟩
  rw [heq]
  exact dbSelectCanceled_markCanceled_self db e.id b hrow

/-- The Discord-side lookups and permission checks of
`send_scheduled_message` all pass. -/
def Env.checksPass (env : Env) : Prop :=
  env.guild_found = true ∧ env.channel_found = true ∧ env.channel_has_send = true ∧
  (env.author_in_guild = true ∨ env.author_fetch_ok = true) ∧
  env.author_can_read = true ∧ env.author_can_send = true ∧
  env.bot_can_read = true ∧ env.bot_can_send = true

/-- When all checks pass but `channel.send` raises, `send_scheduled_message`
reaches the Notifier and the exception escapes the call. -/
theorem send_scheduled_message_raises
    (db : List SavedScheduleEvent) (env : Env) (e : SavedScheduleEvent)
    (hnc : dbSelectCanceled db e.id = some false) (hok : env.checksPass)
    (hraise : env.send_ok = false) :
    send_scheduled_message db env e =
      ⟨true, e.mention && env.author_mention_everyone, .error ()⟩ := by
  obtain ⟨h1, h2, h3, h4, h5, h6, h7, h8⟩ := hok
  unfold send_scheduled_message
  rw [hnc]
  rcases h4 with h4 | h4 <;>
    simp [h1, h2, h3, h4, h5, h6, h7, h8, hraise]

/-- C6: an exception raised during the delivery attempt is caught inside the
drain pass and treated as a delivery failure: the event is marked canceled
in the store and not re-pushed even though `repeat` may be set, and the pass
returns a normal state (the model of the pass is a total function, so
nothing escapes to `scheduler_event_loop`, which proceeds to its next wake). -/
theorem C6_notifier_exception_treated_as_failure
    (db heap : List SavedScheduleEvent) (env : Env) (now : Int)
    (e : SavedScheduleEvent) (rest : List SavedScheduleEvent)
    (hpop : heappop keyTime heap = some (e, rest)) (hlt : e.next_event_time < now)
    (hnc : dbSelectCanceled db e.id = some false) (hok : env.checksPass)
    (hraise : env.send_ok = false) :
    (send_scheduled_message db env e).result = .error () ∧
    drainSuccess db env e = false ∧
    drainIter db heap env now =
      ⟨rest, dbMarkCanceled db e.id, some e, true, true, false, false⟩ ∧
    dbSelectCanceled (drainIter db heap env now).db e.id = some true := by
  have hsend := send_scheduled_message_raises db env e hnc hok hraise
  have hres : (send_scheduled_message db env e).result = .error () := by
    rw [hsend]
  have hds : drainSuccess db env e = false := by
    unfold drainSuccess
    rw [hres]
  have heq := drainIter_cancel db heap env now e rest hpop hlt (Or.inl hds)
  refine ⟨hres, hds, ?_, ?_⟩
  · rw [heq]
    simp [hsend, hds]
  · rw [heq]
    exact dbSelectCanceled_markCanceled_self db e.id false hnc

/-- C2 (amended): for every sequence of pushes into an initially empty
Readiness Queue, successive pops yield events in non-decreasing
`next_fire_time`.  The heap is keyed by `next_event_time` alone — `__lt__`
never consults `id` — so no tie-break order holds among equal fire times. -/
theorem C2_pops_sorted_by_time (es : List SavedScheduleEvent) :
    List.Chain' (fun a b => a.next_event_time ≤ b.next_event_time)
      (popAll keyTime (List.foldl (heappush keyTime) [] es)) := by
  have hinv : heapInv keyTime (List.foldl (heappush keyTime) [] es) :=
    heapInv_foldl_heappush keyTime es [] (heapInv_nil keyTime)
  have hpair := (popAll_spec keyTime _ hinv).2
  have hpair2 : List.Pairwise
      (fun a b : SavedScheduleEvent => a.next_event_time ≤ b.next_event_time)
      (popAll keyTime (List.foldl (heappush keyTime) [] es)) :=
    hpair.imp (fun h => h)
  exact hpair2.chain'

/-- C3 (amended): a drain pass attempts delivery of the popped minimum event
exactly when its `next_fire_time` is strictly less than the current time;
when `next_fire_time ≥ now` — the present instant included — the event is
pushed back unchanged (the queue is a permutation of the original) and
`should_sleep` stays true, stopping the drain for this wake. -/
theorem C3_delivery_iff_strictly_past
    (db heap : List SavedScheduleEvent) (env : Env) (now : Int)
    (hinv : heapInv keyTime heap) (hne : heap ≠ []) :
    ∃ e rest, heappop keyTime heap = some (e, rest) ∧
      (∀ y ∈ heap, e.next_event_time ≤ y.next_event_time) ∧
      ((drainIter db heap env now).send_called = true ↔ e.next_event_time < now) ∧
      (¬ e.next_event_time < now →
        drainIter db heap env now =
          ⟨heappush keyTime rest e, db, some e, false, false, false, true⟩ ∧
        List.Perm (drainIter db heap env now).heap heap ∧
        (drainIter db heap env now).should_sleep = true) := by
  obtain ⟨rest, hpop, hperm, hinvr, _⟩ := heappop_spec keyTime heap hinv hne
  refine ⟨heap.getD 0 default, rest, hpop, ?_, ?_, ?_⟩
  · intro y hy
    exact heapInv_root_min_mem keyTime heap hinv y hy
  · by_cases hlt : (heap.getD 0 default).next_event_time < now
    · refine ⟨fun _ => hlt, fun _ => ?_⟩
      by_cases hguard : drainSuccess db env (heap.getD 0 default) = false ∨
          (heap.getD 0 default).«repeat» = none
      · rw [drainIter_cancel db heap env now _ rest hpop hlt hguard]
      · rw [not_or] at hguard
        obtain ⟨r, hr⟩ := Option.ne_none_iff_exists'.mp hguard.2
        have hsucc : drainSuccess db env (heap.getD 0 default) = true := by
          cases hb : drainSuccess db env (heap.getD 0 default)
          · exact absurd hb hguard.1
          · rfl
        rw [drainIter_repeat db heap env now _ _ rest hpop hlt hsucc hguard.2
          (do_repeat_ok _ r hr now)]
    · rw [drainIter_future db heap env now _ rest hpop hlt]
      constructor
      · intro h
        have h2 : false = true := h
        exact absurd h2 Bool.false_ne_true
      · intro h
        exact absurd h hlt
  · intro hge
    have heq := drainIter_future db heap env now _ rest hpop hge
    refine ⟨heq, ?_, by rw [heq]⟩
    rw [heq]
    have hpp := (heappush_spec keyTime rest (heap.getD 0 default) hinvr).2.1
    exact hpp.trans hperm.symm

/-- C4 (amended): after a successful delivery of a repeating event, the new
`next_fire_time` written to the store and carried by the single re-pushed
copy is `int(int(now) + repeat*60)` = `⌊now + repeat·60⌋` (for the integer
second clock `now ≥ 0`), computed from the wall clock at delivery and
independent of the previous `next_fire_time`; it equals `now + repeat·60`
exactly when `repeat·60` is a whole number of seconds — the code truncates,
so for fractional `repeat·60` the stored value is the floor of the sum, not
the sum itself. -/
theorem C4_repeat_reschedule_from_now
    (db heap : List SavedScheduleEvent) (env : Env) (now : Int)
    (e : SavedScheduleEvent) (rest : List SavedScheduleEvent) (r : ℚ)
    (hpop : heappop keyTime heap = some (e, rest)) (hlt : e.next_event_time < now)
    (hsucc : drainSuccess db env e = true) (hrep : e.«repeat» = some r)
    (hr : 0 ≤ r) (hnow : 0 ≤ now) (hinvr : heapInv keyTime rest) :
    ∃ ne, e.do_repeat now = .ok ne ∧
      ne.next_event_time = ⌊(now : ℚ) + r * 60⌋ ∧
      (drainIter db heap env now).db = dbUpdateTime db e.id ne.next_event_time ∧
      (drainIter db heap env now).heap = heappush keyTime rest ne ∧
      List.Perm (drainIter db heap env now).heap (ne :: rest) ∧
      (drainIter db heap env now).heap.count ne = rest.count ne + 1 ∧
      (∀ z : Int, r * 60 = (z : ℚ) → ne.next_event_time = now + z) := by
  have hdo := do_repeat_ok e r hrep now
  have hnn : ¬ ((now : ℚ) + r * 60 < 0) := by
    push_neg
    have h1 : (0 : ℚ) ≤ (now : ℚ) := by exact_mod_cast hnow
    have h2 : (0 : ℚ) ≤ r * 60 := mul_nonneg hr (by norm_num)
    linarith
  have htr : pytrunc ((now : ℚ) + r * 60) = ⌊(now : ℚ) + r * 60⌋ := by
    unfold pytrunc
    rw [if_neg hnn]
  have heq := drainIter_repeat db heap env now e
    ⟨e.id, e.message, e.guild_id, e.channel_id, e.author_id,
      pytrunc ((now : ℚ) + r * 60), some r, e.canceled, e.mention⟩
    rest hpop hlt hsucc (by rw [hrep]; simp) hdo
  refine ⟨_, hdo, htr, ?_, ?_, ?_, ?_, ?_⟩
  · rw [heq]
  · rw [heq]
  · rw [heq]
    exact (heappush_spec keyTime rest _ hinvr).2.1
  · rw [heq]
    have hp := (heappush_spec keyTime rest
      ⟨e.id, e.message, e.guild_id, e.channel_id, e.author_id,
        pytrunc ((now : ℚ) + r * 60), some r, e.canceled, e.mention⟩ hinvr).2.1
    rw [hp.count_eq]
    simp
  · intro z hz
    show pytrunc ((now : ℚ) + r * 60) = now + z
    rw [htr, hz, ← Int.cast_add]
    exact Int.floor_intCast _

/-- C7: recovery loads exactly the rows whose `canceled` flag is false, bulk
heapify re-establishes the heap invariant on them, and `cog_load_heap` is
precisely the fully-populated heap value on which the dispatch loop is then
started. -/
theorem C7_recovery_loads_active_and_heapifies (db : List SavedScheduleEvent) :
    List.Perm (cog_load_heap db) (db.filter (fun r => !r.canceled)) ∧
    heapInv keyTime (cog_load_heap db) ∧
    (∀ e, e ∈ cog_load_heap db ↔ e ∈ db ∧ e.canceled = false) := by
  have hsort : List.Perm (loadActive db) (db.filter (fun r => !r.canceled)) :=
    List.perm_insertionSort byTime _
  obtain ⟨hperm, hinv⟩ := heapify_spec keyTime (loadActive db)
  refine ⟨hperm.trans hsort, hinv, ?_⟩
  intro e
  unfold cog_load_heap
  rw [(hperm.trans hsort).mem_iff, List.mem_filter]
  simp

/-- Reduction of `sanitizeRepeat` on a parsed numeric value. -/
theorem sanitizeRepeat_numeric (debug : Bool) (q : ℚ) :
    sanitizeRepeat debug (.numeric q) =
      if q ≤ 0 then .ok none
      else if q > 60 * 24 * 365 then .error "Repeat cannot be longer than a year."
      else if q < (if debug then 1/5 else 60) then
        .error (if debug then "Repeat cannot be less than 12 seconds (debug mode is active)."
                else "Repeat cannot be less than one hour.")
      else .ok (some q) := rfl

/-- C8 (amended): the accepted positive repeat values are bounded by
inclusive bounds — `60 ≤ repeat` in production (`0.2 ≤ repeat` in debug
mode), not the strict `> 60` of the claim, and `repeat ≤ 525600` — and
`InvalidRepeat` is raised exactly for the positive values outside them, so
no out-of-bounds repeat is ever returned to the insertion path. -/
theorem C8_repeat_bounds (debug : Bool) (q : ℚ) (hq : 0 < q) :
    ((∃ s, sanitizeRepeat debug (.numeric q) = .error s) ↔
      (60 * 24 * 365 < q ∨ q < (if debug then 1/5 else 60))) ∧
    (∀ r, sanitizeRepeat debug (.numeric q) = .ok (some r) →
      r = q ∧ (if debug then (1 : ℚ)/5 else 60) ≤ r ∧ r ≤ 60 * 24 * 365) := by
  have h0 : ¬ q ≤ 0 := not_le.mpr hq
  constructor
  · constructor
    · rintro ⟨s, hs⟩
      rw [sanitizeRepeat_numeric, if_neg h0] at hs
      by_cases h1 : q > 60 * 24 * 365
      · exact Or.inl h1
      · rw [if_neg h1] at hs
        by_cases h2 : q < (if debug then 1/5 else 60)
        · exact Or.inr h2
        · rw [if_neg h2] at hs
          exact absurd hs (by simp)
    · intro h
      rw [sanitizeRepeat_numeric, if_neg h0]
      rcases h with h1 | h2
      · rw [if_pos h1]
        exact ⟨_, rfl⟩
      · by_cases h1 : q > 60 * 24 * 365
        · rw [if_pos h1]
          exact ⟨_, rfl⟩
        · rw [if_neg h1, if_pos h2]
          exact ⟨_, rfl⟩
  · intro r hr
    rw [sanitizeRepeat_numeric, if_neg h0] at hr
    by_cases h1 : q > 60 * 24 * 365
    · rw [if_pos h1] at hr
      exact absurd hr (by simp)
    · rw [if_neg h1] at hr
      by_cases h2 : q < (if debug then 1/5 else 60)
      · rw [if_pos h2] at hr
        exact absurd hr (by simp)
      · rw [if_neg h2] at hr
        have hqr : q = r := by
          have := hr
          injection this with h3
          injection h3
        refine ⟨hqr.symm, ?_, ?_⟩
        · rw [← hqr]
          exact not_lt.mp h2
        · rw [← hqr]
          exact not_lt.mp h1

/-- C9: a repeat field that is empty, non-numeric, zero or negative is
silently coerced to the absent repeat (a one-shot event) without raising;
`InvalidRepeat` is raised only for positive out-of-bound numeric values. -/
theorem C9_nonpositive_repeat_coerced_silently (debug : Bool) (q : ℚ) :
    sanitizeRepeat debug .empty = .ok none ∧
    sanitizeRepeat debug .nonNumeric = .ok none ∧
    (q ≤ 0 → sanitizeRepeat debug (.numeric q) = .ok none) ∧
    (∀ s, sanitizeRepeat debug (.numeric q) = .error s →
      0 < q ∧ (60 * 24 * 365 < q ∨ q < (if debug then 1/5 else 60))) := by
  refine ⟨rfl, rfl, ?_, ?_⟩
  · intro hq
    rw [sanitizeRepeat_numeric, if_pos hq]
  · intro s hs
    rw [sanitizeRepeat_numeric] at hs
    by_cases h0 : q ≤ 0
    · rw [if_pos h0] at hs
      exact absurd hs (by simp)
    · rw [if_neg h0] at hs
      refine ⟨lt_of_not_le h0, ?_⟩
      by_cases h1 : q > 60 * 24 * 365
      · exact Or.inl h1
      · rw [if_neg h1] at hs
        by_cases h2 : q < (if debug then 1/5 else 60)
        · exact Or.inr h2
        · rw [if_neg h2] at hs
          exact absurd hs (by simp)

/-- C10: `do_repeat` on an event with `repeat` present returns a copy in
which only `next_event_time` changed — `id`, `message`, `guild_id`,
`channel_id`, `author_id`, `repeat`, `canceled` and `mention` are preserved —
and it raises `ValueError` exactly when `repeat` is absent. -/
theorem C10_do_repeat_frame (e : SavedScheduleEvent) (t : Int) :
    (∀ r, e.«repeat» = some r →
      ∃ ne, e.do_repeat t = .ok ne ∧
        ne.id = e.id ∧ ne.message = e.message ∧ ne.guild_id = e.guild_id ∧
        ne.channel_id = e.channel_id ∧ ne.author_id = e.author_id ∧
        ne.«repeat» = e.«repeat» ∧ ne.canceled = e.canceled ∧
        ne.mention = e.mention ∧
        ne.next_event_time = pytrunc ((t : ℚ) + r * 60)) ∧
    (e.«repeat» = none →
      e.do_repeat t = .error "repeat cannot be None to do_repeat().") := by
  constructor
  · intro r hr
    refine ⟨_, do_repeat_ok e r hr t, rfl, rfl, rfl, rfl, rfl, hr.symm, rfl, rfl, rfl⟩
  · intro hr
    unfold SavedScheduleEvent.do_repeat
    rw [hr]

/-! ### Concrete instances for counterexamples and witnesses -/

/-- A fully permissive Discord environment with a working `channel.send`. -/
def envAll : Env := ⟨true, true, true, true, true, true, true, true, true, true, true⟩

/-- Same checks, but `channel.send` raises. -/
def envRaise : Env := ⟨true, true, true, true, true, true, true, true, true, true, false⟩

/-- One-shot event due at `t = 5`. -/
def ev5 : SavedScheduleEvent := ⟨1, "hello", 10, 20, 30, 5, none, false, false⟩

/-- Repeating event (61 whole minutes) due at `t = 5`. -/
def evRep : SavedScheduleEvent := ⟨1, "r", 10, 20, 30, 5, some 61, false, false⟩

/-- Canceled event whose stale copy is still in the queue. -/
def evCanc : SavedScheduleEvent := ⟨1, "c", 10, 20, 30, 5, none, true, false⟩

/-- Two events with equal fire times and descending ids. -/
def evA : SavedScheduleEvent := ⟨2, "a", 1, 1, 1, 5, none, false, false⟩

/-- See `evA`. -/
def evB : SavedScheduleEvent := ⟨1, "b", 1, 1, 1, 5, none, false, false⟩

/-- Repeating event with the fractional interval `repeat = 60.01` minutes. -/
def evFr : SavedScheduleEvent := ⟨1, "f", 1, 1, 1, 5, some (6001/100), false, false⟩

theorem siftup_singleton {α : Type} [Inhabited α] (key : α → Int) (x : α) :
    siftup key [x] 0 = [x] := by
  unfold siftup
  rw [siftupAux, dif_neg (by simp), siftdown, dif_neg (lt_irrefl 0)]

theorem heappop_singleton {α : Type} [Inhabited α] (key : α → Int) (x : α) :
    heappop key [x] = some (x, []) := rfl

theorem heappop_pair {α : Type} [Inhabited α] (key : α → Int) (x y : α) :
    heappop key [x, y] = some (x, [y]) := by
  show some (x, siftup key [y] 0) = some (x, [y])
  rw [siftup_singleton]

/-- C2 counterexample: two pushes with equal `next_fire_time` and descending
ids pop in push order — id 2 before id 1 — not in ascending id order, so the
queue is not keyed by `(next_fire_time, id)`. -/
theorem C2_counterexample :
    popAll keyTime (List.foldl (heappush keyTime) [] [evA, evB]) = [evA, evB] ∧
    evA.next_event_time = evB.next_event_time ∧ evB.id < evA.id := by
  have h1 : List.foldl (heappush keyTime) [] [evA, evB] = heappush keyTime [evA] evB := by
    rw [List.foldl_cons, List.foldl_cons, List.foldl_nil, heappush_nil]
  have h2 : heappush keyTime [evA] evB = [evA, evB] := by
    show siftdown keyTime [evA, evB] 0 1 = [evA, evB]
    rw [siftdown, dif_pos (by norm_num),
      if_neg (by norm_num [keyTime, evA, evB, parentIdx])]
  rw [h1, h2]
  refine ⟨?_, rfl, by norm_num [evA, evB]⟩
  show popAllAux keyTime 2 [evA, evB] = [evA, evB]
  simp [popAllAux, heappop_pair, heappop_singleton]

/-- C3 counterexample: an event with `next_fire_time = now` — so
`next_fire_time ≤ now` holds — is not delivered: the pass pushes it back
unchanged and stops draining, refuting the `≤` reading of the claim. -/
theorem C3_counterexample :
    ev5.next_event_time ≤ 5 ∧
    drainIter [ev5] [ev5] envAll 5 =
      ⟨[ev5], [ev5], some ev5, false, false, false, true⟩ := by
  refine ⟨by norm_num [ev5], ?_⟩
  have heq := drainIter_future [ev5] [ev5] envAll 5 ev5 []
    (heappop_singleton keyTime ev5) (by norm_num [ev5])
  rw [heq, heappush_nil]

/-- C4 counterexample: `repeat = 60.01` minutes delivered at `now = 1000`:
the store receives `int(1000 + 60.01*60) = 4600`, while the claimed value
`now + repeat*60` is `4600.6` — the stored time is not `now + repeat*60`. -/
theorem C4_counterexample :
    (drainIter [evFr] [evFr] envAll 1000).db =
      [⟨1, "f", 1, 1, 1, 4600, some (6001/100), false, false⟩] ∧
    ((4600 : ℚ) ≠ (1000 : ℚ) + (6001/100) * 60) := by
  refine ⟨?_, by norm_num⟩
  have hdo := do_repeat_ok evFr (6001/100) rfl 1000
  have hsucc : drainSuccess [evFr] envAll evFr = true := by decide
  have heq := drainIter_repeat [evFr] [evFr] envAll 1000 evFr _ []
    (heappop_singleton keyTime evFr) (by norm_num [evFr]) hsucc (by simp [evFr]) hdo
  rw [heq]
  have htr : pytrunc ((1000 : ℚ) + (6001/100) * 60) = 4600 := by
    unfold pytrunc
    rw [if_neg (by norm_num)]
    norm_num
  simp [dbUpdateTime, evFr, htr]

/-- C8 counterexample: `repeat = 60` is positive and not strictly greater
than 60 minutes, yet `sanitize_response` accepts it rather than raising
`InvalidRepeat` (`60 < 60` is false, so the lower bound is inclusive). -/
theorem C8_counterexample :
    sanitizeRepeat false (.numeric 60) = .ok (some 60) ∧ ¬ (60 : ℚ) > 60 := by
  refine ⟨?_, by norm_num⟩
  rw [sanitizeRepeat_numeric]
  norm_num

/-! ### Witnesses -/

/-- C1 witness: concrete canceled event popped by a concrete pass. -/
theorem C1_witness :
    (∀ e : SavedScheduleEvent, e.id = 1 →
      send_scheduled_message [evCanc] envAll e = ⟨false, false, .ok false⟩) ∧
    (∀ e, (drainIter [evCanc] [evCanc] envAll 10).popped = some e → e.id = 1 →
      (drainIter [evCanc] [evCanc] envAll 10).delivered = false) ∧
    dbSelectCanceled (drainIter [evCanc] [evCanc] envAll 10).db 1 = some true :=
  C1_canceled_event_never_delivered [evCanc] [evCanc] envAll 10 1 (by decide)

/-- C3 witness: the amended statement at a concrete heap and instant. -/
theorem C3_witness :
    ∃ e rest, heappop keyTime [ev5] = some (e, rest) ∧
      (∀ y ∈ [ev5], e.next_event_time ≤ y.next_event_time) ∧
      ((drainIter [ev5] [ev5] envAll 10).send_called = true ↔ e.next_event_time < 10) ∧
      (¬ e.next_event_time < 10 →
        drainIter [ev5] [ev5] envAll 10 =
          ⟨heappush keyTime rest e, [ev5], some e, false, false, false, true⟩ ∧
        List.Perm (drainIter [ev5] [ev5] envAll 10).heap [ev5] ∧
        (drainIter [ev5] [ev5] envAll 10).should_sleep = true) :=
  C3_delivery_iff_strictly_past [ev5] [ev5] envAll 10
    (by intro j hj h0; simp at hj; omega) (by simp)

/-- C4 witness: a 61-minute repeat delivered at `now = 1000`. -/
theorem C4_witness :
    ∃ ne, evRep.do_repeat 1000 = .ok ne ∧
      ne.next_event_time = ⌊(1000 : ℚ) + 61 * 60⌋ ∧
      (drainIter [evRep] [evRep] envAll 1000).db =
        dbUpdateTime [evRep] evRep.id ne.next_event_time ∧
      (drainIter [evRep] [evRep] envAll 1000).heap = heappush keyTime [] ne ∧
      List.Perm (drainIter [evRep] [evRep] envAll 1000).heap (ne :: []) ∧
      (drainIter [evRep] [evRep] envAll 1000).heap.count ne =
        ([] : List SavedScheduleEvent).count ne + 1 ∧
      (∀ z : Int, (61 : ℚ) * 60 = (z : ℚ) → ne.next_event_time = 1000 + z) :=
  C4_repeat_reschedule_from_now [evRep] [evRep] envAll 1000 evRep [] 61
    (heappop_singleton keyTime evRep) (by norm_num [evRep]) (by decide) rfl
    (by norm_num) (by norm_num) (heapInv_nil keyTime)

/-- C5 witness: a concrete due one-shot event. -/
theorem C5_witness :
    drainIter [ev5] [ev5] envAll 10 =
      ⟨[], dbMarkCanceled [ev5] ev5.id, some ev5, true,
       (send_scheduled_message [ev5] envAll ev5).invoked_notifier,
       drainSuccess [ev5] envAll ev5, false⟩ ∧
    dbSelectCanceled (drainIter [ev5] [ev5] envAll 10).db ev5.id = some true ∧
    (drainIter [ev5] [ev5] envAll 10).heap = [] ∧
    (drainIter [ev5] [ev5] envAll 10).send_called = true :=
  C5_oneshot_canceled_after_one_attempt [ev5] [ev5] envAll 10 ev5 [] false
    (heappop_singleton keyTime ev5) (by norm_num [ev5]) rfl (by decide)

/-- C6 witness: a concrete raising Notifier. -/
theorem C6_witness :
    (send_scheduled_message [ev5] envRaise ev5).result = .error () ∧
    drainSuccess [ev5] envRaise ev5 = false ∧
    drainIter [ev5] [ev5] envRaise 10 =
      ⟨[], dbMarkCanceled [ev5] ev5.id, some ev5, true, true, false, false⟩ ∧
    dbSelectCanceled (drainIter [ev5] [ev5] envRaise 10).db ev5.id = some true :=
  C6_notifier_exception_treated_as_failure [ev5] [ev5] envRaise 10 ev5 []
    (heappop_singleton keyTime ev5) (by norm_num [ev5]) (by decide)
    ⟨rfl, rfl, rfl, Or.inl rfl, rfl, rfl, rfl, rfl⟩ rfl

/-- C8 witness: the amended bounds at the concrete value `repeat = 100`. -/
theorem C8_witness :
    ((∃ s, sanitizeRepeat false (.numeric 100) = .error s) ↔
      (60 * 24 * 365 < (100 : ℚ) ∨ (100 : ℚ) < (if false then 1/5 else 60))) ∧
    (∀ r, sanitizeRepeat false (.numeric 100) = .ok (some r) →
      r = 100 ∧ (if false then (1 : ℚ)/5 else 60) ≤ r ∧ r ≤ 60 * 24 * 365) :=
  C8_repeat_bounds false 100 (by norm_num)

/-- C9 witness: a negative repeat is coerced to none; an over-a-year repeat
is reported as a positive out-of-bound value. -/
theorem C9_witness :
    sanitizeRepeat false (.numeric (-1)) = .ok none ∧
    (0 < (600000 : ℚ) ∧
      (60 * 24 * 365 < (600000 : ℚ) ∨ (600000 : ℚ) < (if false then 1/5 else 60))) :=
  ⟨(C9_nonpositive_repeat_coerced_silently false (-1)).2.2.1 (by norm_num),
   (C9_nonpositive_repeat_coerced_silently false 600000).2.2.2
     "Repeat cannot be longer than a year." (by rw [sanitizeRepeat_numeric]; norm_num)⟩

/-- Concrete event for the C10 witness. -/
def evTen : SavedScheduleEvent := ⟨7, "w", 4, 8, 9, 100, some 61, false, true⟩

/-- C10 witness: `do_repeat` at a concrete repeating event. -/
theorem C10_witness :
    ∃ ne, evTen.do_repeat 500 = .ok ne ∧
      ne.id = evTen.id ∧ ne.message = evTen.message ∧ ne.guild_id = evTen.guild_id ∧
      ne.channel_id = evTen.channel_id ∧ ne.author_id = evTen.author_id ∧
      ne.«repeat» = evTen.«repeat» ∧ ne.canceled = evTen.canceled ∧
      ne.mention = evTen.mention ∧
      ne.next_event_time = pytrunc ((500 : ℚ) + 61 * 60) :=
  (C10_do_repeat_frame evTen 500).1 61 rfl

end DMS
